import Mathlib

set_option maxHeartbeats 1000000
set_option maxRecDepth 8000

/-!
Shallow embedding of `src/evm/src/fuzz/strategies/param.rs`: the recursive
ABI-type-to-strategy dispatcher of the fuzzer, in its two modes
(`fuzz_param`, pure random sampling, and `fuzz_param_from_state`,
corpus-biased sampling from a shared state of 32-byte words).

A proptest strategy is modelled by two total functions:
* a `*_build` function giving the construction-time outcome (the Rust
  functions panic at construction on unsupported integer widths); and
* a `*_sample` function giving the value produced by one draw, as a function
  of the entropy the external engine feeds the strategy.  Entropy that does
  not fit the shape yields `SampleError.badEntropy`; a Rust panic that can
  occur during a draw yields `SampleError.samplePanic`.
-/

/-- The max length of arrays we fuzz for is 256 (`MAX_ARRAY_LEN` in the source). -/
def MAX_ARRAY_LEN : Nat := 256

/-- One 32-byte word of the EVM fuzz state (`[u8; 32]`), as its list of bytes. -/
abbrev Word := List Nat

/-- The ABI parameter shapes handled by the dispatcher (`ethers` `ParamType`). -/
inductive ParamType where
  | address
  | bytes
  | int (n : Nat)
  | uint (n : Nat)
  | bool
  | string
  | array (p : ParamType)
  | fixedBytes (size : Nat)
  | fixedArray (p : ParamType) (size : Nat)
  | tuple (ps : List ParamType)

/-- The produced runtime values (`ethers` `Token`).  Byte strings are lists of
bytes; a signed 256-bit `I256` is an `Int`; an unsigned `U256` is a `Nat`.
A `String` token keeps the raw bytes, since the source reinterprets bytes as
text without validation. -/
inductive Token where
  | address (bs : List Nat)
  | bytes (bs : List Nat)
  | int (v : Int)
  | uint (v : Nat)
  | bool (b : Bool)
  | string (bs : List Nat)
  | fixedBytes (bs : List Nat)
  | array (ts : List Token)
  | fixedArray (ts : List Token)
  | tuple (ts : List Token)

/-- The entropy one draw of a strategy consumes, as fed by the external
proptest engine: raw byte draws, a boolean draw, the output of the external
`UintStrategy`, a `prop::sample::Index` draw, and the per-element entropy of a
collection draw (whose list length is the length the engine chose from the
combinator's size range). -/
inductive Entropy where
  | bytesE (bs : List Nat)
  | boolE (b : Bool)
  | uintE (v : Nat)
  | idxE (i : Nat)
  | seqE (es : List Entropy)

/-- Outcome classification for one draw. -/
inductive SampleError where
  /-- A Rust panic raised while drawing (e.g. `Index::index` on size 0, or the
  `32 - size` underflow in the corpus-biased `FixedBytes` arm). -/
  | samplePanic
  /-- The supplied entropy does not fit the shape (never produced by the
  engine driving the real strategy). -/
  | badEntropy
deriving DecidableEq

/-- Construction-time failure (`panic!("unsupported solidity type ...")`). -/
inductive BuildError where
  | unsupportedWidth (n : Nat)
deriving DecidableEq

/-- Big-endian interpretation of a byte list as a `Nat`
(`U256::from(&x)` on a `[u8; 32]`). -/
def beNat (bs : List Nat) : Nat := bs.foldl (fun a b => a * 256 + b) 0

/-- Reinterpret an unsigned 256-bit value as signed two's complement
(`I256::from_raw`). -/
def toSigned256 (v : Nat) : Int :=
  if v < 2 ^ 255 then (v : Int) else (v : Int) - 2 ^ 256

/-- One corpus lookup of `fuzz_param_from_state`'s `value` strategy: a
`prop::sample::Index` draw `i` is reduced against the length snapshot
`stateLen` captured at construction (`index.index(state_len)`, which panics
when the size is 0), and the word at the resulting index is fetched from the
live state (`s.borrow().iter().nth(index).unwrap()`). -/
def selectValue (stateLen : Nat) (live : List Word) (i : Nat) :
    Except SampleError Word :=
  if stateLen = 0 then .error .samplePanic
  else
    match live.get? (i % stateLen) with
    | some w => .ok w
    | none => .error .samplePanic

/-- Modelled from the spec: the construction-time width check of the dedicated
width-aware unsigned-integer sampling capability (`UintStrategy`, repository
code outside `src/`): a width outside the supported byte-multiple range
(not a whole byte count between 8 and 256 bits) fails as `UnsupportedWidth`. -/
def UintStrategy_new_check (n : Nat) : Except BuildError Unit :=
  if n % 8 = 0 ∧ 1 ≤ n / 8 ∧ n / 8 ≤ 32 then .ok () else .error (.unsupportedWidth n)

/-- Modelled from the spec: one draw of the dedicated width-aware
unsigned-integer sampling capability (`UintStrategy::new(n, vec![])`,
repository code outside `src/`), which is responsible for producing an
unsigned value in the correct range `[0, 2^n)` for its width `n`. -/
def UintStrategy_sample (n : Nat) (e : Entropy) : Except SampleError Nat :=
  match e with
  | .uintE v => if v < 2 ^ n then .ok v else .error .badEntropy
  | _ => .error .badEntropy

mutual

/-- One draw of the strategy built by `fuzz_param` (pure random mode), as a
function of the entropy consumed by the draw. -/
def fuzz_param_sample : ParamType → Entropy → Except SampleError Token
  | .address, .bytesE bs =>
      if bs.length = 20 ∧ ∀ b ∈ bs, b < 256 then .ok (.address bs)
      else .error .badEntropy
  | .bytes, .bytesE bs =>
      if ∀ b ∈ bs, b < 256 then .ok (.bytes bs) else .error .badEntropy
  | .int n, .bytesE bs =>
      if bs.length = 32 ∧ ∀ b ∈ bs, b < 256 then
        if n / 8 = 32 then .ok (.int (toSigned256 (beNat bs)))
        else if 1 ≤ n / 8 ∧ n / 8 ≤ 31 then
          .ok (.int (toSigned256
            ((beNat bs % 2 ^ ((n / 8) * 8) + (2 ^ 256 - 2 ^ ((n / 8) * 8 - 1))) % 2 ^ 256)))
        else .error .samplePanic
      else .error .badEntropy
  | .uint n, e => (UintStrategy_sample n e).map .uint
  | .bool, .boolE b => .ok (.bool b)
  | .string, .bytesE bs =>
      if ∀ b ∈ bs, b < 256 then .ok (.string bs) else .error .badEntropy
  | .array p, .seqE es =>
      if es.length < MAX_ARRAY_LEN then (fuzz_param_sampleList p es).map .array
      else .error .badEntropy
  | .fixedBytes size, .bytesE bs =>
      if bs.length = size ∧ ∀ b ∈ bs, b < 256 then .ok (.fixedBytes bs)
      else .error .badEntropy
  | .fixedArray p size, .seqE es =>
      if es.length = size then (fuzz_param_sampleList p es).map .fixedArray
      else .error .badEntropy
  | .tuple ps, .seqE es => (fuzz_param_sampleTuple ps es).map .tuple
  | _, _ => .error .badEntropy

/-- Draws of the element strategies of one `fuzz_param` collection draw. -/
def fuzz_param_sampleList : ParamType → List Entropy → Except SampleError (List Token)
  | _, [] => .ok []
  | p, e :: es => do
      let t ← fuzz_param_sample p e
      let ts ← fuzz_param_sampleList p es
      .ok (t :: ts)

/-- Draws of the per-component strategies of one `fuzz_param` tuple draw. -/
def fuzz_param_sampleTuple : List ParamType → List Entropy → Except SampleError (List Token)
  | [], [] => .ok []
  | p :: ps, e :: es => do
      let t ← fuzz_param_sample p e
      let ts ← fuzz_param_sampleTuple ps es
      .ok (t :: ts)
  | _, _ => .error .badEntropy

end

mutual

/-- One draw of the strategy built by `fuzz_param_from_state` (corpus-biased
mode) against `corpus`, the fuzz state whose length snapshot was captured at
construction. -/
def fuzz_param_from_state_sample :
    ParamType → List Word → Entropy → Except SampleError Token
  | .address, corpus, .idxE i => do
      let w ← selectValue corpus.length corpus i
      .ok (.address (w.drop 12))
  | .bytes, corpus, .idxE i => do
      let w ← selectValue corpus.length corpus i
      .ok (.bytes w)
  | .int n, corpus, .idxE i => do
      let w ← selectValue corpus.length corpus i
      if n / 8 = 32 then .ok (.int (toSigned256 (beNat w)))
      else if 1 ≤ n / 8 ∧ n / 8 ≤ 31 then
        .ok (.int (toSigned256
          ((beNat w % 2 ^ ((n / 8) * 8) + (2 ^ 256 - 2 ^ ((n / 8) * 8 - 1))) % 2 ^ 256)))
      else .error .samplePanic
  | .uint n, corpus, .idxE i => do
      let w ← selectValue corpus.length corpus i
      if n / 8 = 32 then .ok (.uint (beNat w))
      else if 1 ≤ n / 8 ∧ n / 8 ≤ 31 then
        .ok (.uint (beNat w % 2 ^ ((n / 8) * 8)))
      else .error .samplePanic
  | .bool, corpus, .idxE i => do
      let w ← selectValue corpus.length corpus i
      .ok (.bool (w.getD 31 0 == 1))
  | .string, corpus, .idxE i => do
      let w ← selectValue corpus.length corpus i
      .ok (.string w)
  | .array p, corpus, .seqE es =>
      if es.length < MAX_ARRAY_LEN then
        (fuzz_param_from_state_sampleList p corpus es).map .array
      else .error .badEntropy
  | .fixedBytes size, corpus, .idxE i => do
      let w ← selectValue corpus.length corpus i
      if 32 < size then .error .samplePanic
      else .ok (.fixedBytes (w.drop (32 - size)))
  | .fixedArray p size, corpus, .seqE es =>
      if es.length < size then
        (fuzz_param_from_state_sampleList p corpus es).map .fixedArray
      else .error .badEntropy
  | .tuple ps, corpus, .seqE es =>
      (fuzz_param_from_state_sampleTuple ps corpus es).map .tuple
  | _, _, _ => .error .badEntropy

/-- Draws of the element strategies of one `fuzz_param_from_state` collection
draw (each element independently re-samples a fresh index). -/
def fuzz_param_from_state_sampleList :
    ParamType → List Word → List Entropy → Except SampleError (List Token)
  | _, _, [] => .ok []
  | p, corpus, e :: es => do
      let t ← fuzz_param_from_state_sample p corpus e
      let ts ← fuzz_param_from_state_sampleList p corpus es
      .ok (t :: ts)

/-- Draws of the per-component strategies of one `fuzz_param_from_state`
tuple draw. -/
def fuzz_param_from_state_sampleTuple :
    List ParamType → List Word → List Entropy → Except SampleError (List Token)
  | [], _, [] => .ok []
  | p :: ps, corpus, e :: es => do
      let t ← fuzz_param_from_state_sample p corpus e
      let ts ← fuzz_param_from_state_sampleTuple ps corpus es
      .ok (t :: ts)
  | _, _, _ => .error .badEntropy

end

mutual

/-- Construction-time outcome of `fuzz_param`: the only way construction can
fail is the `panic!("unsupported solidity type int{n}")` arm of the `Int`
match (`n / 8` outside `1..=32`), plus — modelled from the spec — the width
check of the external `UintStrategy`.  Note that a `FixedArray` of size 0
never invokes the element closure, so the element shape is not checked. -/
def fuzz_param_build : ParamType → Except BuildError Unit
  | .address => .ok ()
  | .bytes => .ok ()
  | .int n => if 1 ≤ n / 8 ∧ n / 8 ≤ 32 then .ok () else .error (.unsupportedWidth n)
  | .uint n => UintStrategy_new_check n
  | .bool => .ok ()
  | .string => .ok ()
  | .array p => fuzz_param_build p
  | .fixedBytes _ => .ok ()
  | .fixedArray p size => if size = 0 then .ok () else fuzz_param_build p
  | .tuple ps => fuzz_param_buildList ps

/-- Construction of the child strategies of a `fuzz_param` tuple. -/
def fuzz_param_buildList : List ParamType → Except BuildError Unit
  | [] => .ok ()
  | p :: ps => do
      fuzz_param_build p
      fuzz_param_buildList ps

end

mutual

/-- Construction-time outcome of `fuzz_param_from_state`.  The corpus handle
is read (its length snapshot is captured) but never validated: an empty corpus
does not fail construction.  The only construction-time failures are the
`panic!("unsupported solidity type ...")` arms of the `Int` and `Uint`
matches (`n / 8` outside `1..=32`).  Both collection combinators receive an
eagerly-constructed element strategy, so element shapes are always checked. -/
def fuzz_param_from_state_build : ParamType → List Word → Except BuildError Unit
  | .address, _ => .ok ()
  | .bytes, _ => .ok ()
  | .int n, _ => if 1 ≤ n / 8 ∧ n / 8 ≤ 32 then .ok () else .error (.unsupportedWidth n)
  | .uint n, _ => if 1 ≤ n / 8 ∧ n / 8 ≤ 32 then .ok () else .error (.unsupportedWidth n)
  | .bool, _ => .ok ()
  | .string, _ => .ok ()
  | .array p, c => fuzz_param_from_state_build p c
  | .fixedBytes _, _ => .ok ()
  | .fixedArray p _, c => fuzz_param_from_state_build p c
  | .tuple ps, c => fuzz_param_from_state_buildList ps c

/-- Construction of the child strategies of a `fuzz_param_from_state` tuple. -/
def fuzz_param_from_state_buildList : List ParamType → List Word → Except BuildError Unit
  | [], _ => .ok ()
  | p :: ps, c => do
      fuzz_param_from_state_build p c
      fuzz_param_from_state_buildList ps c

end

mutual

/-- Structural conformance of a produced `Token` to the `ParamType` it was
generated from: same variant, nested elements recursively conforming,
fixed sizes and tuple arity matching the declaration. -/
def matchesShape : ParamType → Token → Bool
  | .address, .address _ => true
  | .bytes, .bytes _ => true
  | .int _, .int _ => true
  | .uint _, .uint _ => true
  | .bool, .bool _ => true
  | .string, .string _ => true
  | .array p, .array ts => matchesShapeAll p ts
  | .fixedBytes size, .fixedBytes bs => bs.length == size
  | .fixedArray p size, .fixedArray ts => (ts.length == size) && matchesShapeAll p ts
  | .tuple ps, .tuple ts => matchesShapeZip ps ts
  | _, _ => false

/-- All elements conform to the element shape. -/
def matchesShapeAll : ParamType → List Token → Bool
  | _, [] => true
  | p, t :: ts => matchesShape p t && matchesShapeAll p ts

/-- Components conform positionally to the declared shapes, with equal arity. -/
def matchesShapeZip : List ParamType → List Token → Bool
  | [], [] => true
  | p :: ps, t :: ts => matchesShape p t && matchesShapeZip ps ts
  | _, _ => false

end

/-- A wellformed state word: 32 bytes, each below 256. -/
def WFWord (w : Word) : Prop := w.length = 32 ∧ ∀ b ∈ w, b < 256

/-- A concrete state word: 31 zero bytes followed by the byte 1. -/
def word01 : Word := List.replicate 31 0 ++ [1]

/-- The shapes whose corpus-biased strategy converts one fetched corpus word
per draw (every arm of `fuzz_param_from_state` except the three composite
ones, which only recurse). -/
def isScalarShape : ParamType → Bool
  | .address => true
  | .bytes => true
  | .int _ => true
  | .uint _ => true
  | .bool => true
  | .string => true
  | .fixedBytes _ => true
  | _ => false

mutual

/-- A token containing no scalar leaf: a (possibly nested) empty-composite
value, the only kind of token obtainable without converting a corpus word. -/
def leafFree : Token → Bool
  | .array ts => leafFreeList ts
  | .fixedArray ts => leafFreeList ts
  | .tuple ts => leafFreeList ts
  | _ => false

/-- All tokens of the list are leaf-free. -/
def leafFreeList : List Token → Bool
  | [] => true
  | t :: ts => leafFree t && leafFreeList ts

end

/-- A concrete all-zero state word. -/
def word00 : Word := List.replicate 32 0

lemma beNat_foldl_shift (a : Nat) (bs : List Nat) :
    bs.foldl (fun x b => x * 256 + b) a = a * 256 ^ bs.length + beNat bs := by
  induction bs generalizing a with
  | nil => simp [beNat]
  | cons b bs ih =>
      simp only [List.foldl_cons, List.length_cons, beNat]
      rw [ih (a * 256 + b), show (0 : Nat) * 256 + b = b from by ring, ih b]
      ring

lemma beNat_cons (b : Nat) (bs : List Nat) :
    beNat (b :: bs) = b * 256 ^ bs.length + beNat bs := by
  simp only [beNat, List.foldl_cons]
  rw [show (0 : Nat) * 256 + b = b from by ring]
  exact beNat_foldl_shift b bs

lemma beNat_lt (bs : List Nat) (h : ∀ b ∈ bs, b < 256) :
    beNat bs < 2 ^ (8 * bs.length) := by
  induction bs with
  | nil => simp [beNat]
  | cons b bs ih =>
      have hb : b < 256 := h b (by simp)
      have hbs := ih (fun x hx => h x (by simp [hx]))
      rw [beNat_cons]
      have h256 : (2 : Nat) ^ (8 * bs.length) = 256 ^ bs.length := by
        rw [pow_mul]; norm_num
      have h256' : (2 : Nat) ^ (8 * (bs.length + 1)) = 256 ^ (bs.length + 1) := by
        rw [pow_mul]; norm_num
      rw [h256] at hbs
      simp only [List.length_cons, h256']
      calc b * 256 ^ bs.length + beNat bs
          < b * 256 ^ bs.length + 256 ^ bs.length := by omega
        _ = (b + 1) * 256 ^ bs.length := by ring
        _ ≤ 256 * 256 ^ bs.length := Nat.mul_le_mul_right _ (by omega)
        _ = 256 ^ (bs.length + 1) := by ring

/-- Big-endian byte decomposition of a natural number into `k` bytes. -/
def toBytesBE : Nat → Nat → List Nat
  | 0, _ => []
  | k + 1, m => toBytesBE k (m / 256) ++ [m % 256]

lemma length_toBytesBE (k m : Nat) : (toBytesBE k m).length = k := by
  induction k generalizing m with
  | zero => rfl
  | succ k ih => simp [toBytesBE, ih]

lemma mem_toBytesBE_lt (k m : Nat) : ∀ b ∈ toBytesBE k m, b < 256 := by
  induction k generalizing m with
  | zero => simp [toBytesBE]
  | succ k ih =>
      intro b hb
      simp only [toBytesBE, List.mem_append, List.mem_singleton] at hb
      rcases hb with hb | hb
      · exact ih _ b hb
      · subst hb; exact Nat.mod_lt _ (by norm_num)

lemma beNat_append_singleton (bs : List Nat) (b : Nat) :
    beNat (bs ++ [b]) = beNat bs * 256 + b := by
  simp [beNat, List.foldl_append]

lemma beNat_toBytesBE (k m : Nat) : beNat (toBytesBE k m) = m % 256 ^ k := by
  induction k generalizing m with
  | zero => simp [toBytesBE, beNat, Nat.mod_one]
  | succ k ih =>
      rw [toBytesBE, beNat_append_singleton, ih]
      have h : (256 : Nat) ^ (k + 1) = 256 * 256 ^ k := by ring
      rw [h, Nat.mod_mul]
      ring

lemma toSigned256_wrap_sub (u h : Nat) (hu : u < 2 ^ 248) (hle : h ≤ 2 ^ 247) :
    toSigned256 ((u + (2 ^ 256 - h)) % 2 ^ 256) = (u : Int) - (h : Int) := by
  have h1 : (2 : Nat) ^ 248 < 2 ^ 255 := by norm_num
  have h2 : (2 : Nat) ^ 247 < 2 ^ 255 := by norm_num
  have h3 : (2 : Nat) ^ 255 < 2 ^ 256 := by norm_num
  have h4 : (2 : Nat) ^ 255 + 2 ^ 255 = 2 ^ 256 := by norm_num
  rcases le_or_lt h u with hc | hc
  · have he : u + (2 ^ 256 - h) = 2 ^ 256 + (u - h) := by omega
    have hlt : u - h < 2 ^ 256 := by omega
    rw [he, Nat.add_mod_left, Nat.mod_eq_of_lt hlt]
    rw [toSigned256, if_pos (by omega)]
    exact_mod_cast Int.ofNat_sub hc
  · have hlt : u + (2 ^ 256 - h) < 2 ^ 256 := by omega
    rw [Nat.mod_eq_of_lt hlt]
    rw [toSigned256, if_neg (by omega)]
    push_cast [Nat.sub_add_cancel (show h ≤ 2 ^ 256 by omega)]
    omega

lemma fuzz_param_sampleList_length (p : ParamType) :
    ∀ es ts, fuzz_param_sampleList p es = .ok ts → ts.length = es.length := by
  intro es
  induction es with
  | nil =>
      intro ts h
      unfold fuzz_param_sampleList at h
      injection h with h
      simp [← h]
  | cons e es ih =>
      intro ts h
      unfold fuzz_param_sampleList at h
      cases ht : fuzz_param_sample p e with
      | error err => rw [ht] at h; simp [bind, Except.bind] at h
      | ok t =>
          rw [ht] at h
          cases hts : fuzz_param_sampleList p es with
          | error err => rw [hts] at h; simp [bind, Except.bind] at h
          | ok ts' =>
              rw [hts] at h
              simp only [bind, Except.bind] at h
              injection h with h
              simp [← h, ih ts' hts]

lemma fuzz_param_from_state_sampleList_length (p : ParamType) (c : List Word) :
    ∀ es ts, fuzz_param_from_state_sampleList p c es = .ok ts → ts.length = es.length := by
  intro es
  induction es with
  | nil =>
      intro ts h
      unfold fuzz_param_from_state_sampleList at h
      injection h with h
      simp [← h]
  | cons e es ih =>
      intro ts h
      unfold fuzz_param_from_state_sampleList at h
      cases ht : fuzz_param_from_state_sample p c e with
      | error err => rw [ht] at h; simp [bind, Except.bind] at h
      | ok t =>
          rw [ht] at h
          cases hts : fuzz_param_from_state_sampleList p c es with
          | error err => rw [hts] at h; simp [bind, Except.bind] at h
          | ok ts' =>
              rw [hts] at h
              simp only [bind, Except.bind] at h
              injection h with h
              simp [← h, ih ts' hts]

/-- C1: In the corpus-biased mode the FixedArray strategy is built with
`proptest::collection::vec(strategy, 0..*size)`, so a draw may produce fewer
than `size` elements: with shape `FixedArray(Bool, 2)` and a one-word corpus,
a draw whose collection length came out 1 produces a `FixedArray` token of
length 1, not 2. -/
theorem fixedArray_from_state_short_draw :
    fuzz_param_from_state_sample (.fixedArray .bool 2) [word01] (.seqE [.idxE 0]) =
      .ok (.fixedArray [.bool true]) ∧ [Token.bool true].length = 1 :=
  ⟨rfl, rfl⟩

/-- C2 counterexample: requesting the corpus-biased strategy for `Bool` against
an empty corpus succeeds at construction time (refuting "fails at
strategy-construction time"); the panic only occurs at sampling time, when the
index draw is reduced against the zero length snapshot. -/
theorem empty_corpus_builds_ok :
    fuzz_param_from_state_build .bool [] = .ok () ∧
    fuzz_param_from_state_sample .bool [] (.idxE 0) = .error .samplePanic :=
  ⟨rfl, rfl⟩

mutual

theorem build_ignores_corpus : ∀ (p : ParamType) (c : List Word),
    fuzz_param_from_state_build p c = fuzz_param_from_state_build p []
  | .address, _ => rfl
  | .bytes, _ => rfl
  | .int _, _ => rfl
  | .uint _, _ => rfl
  | .bool, _ => rfl
  | .string, _ => rfl
  | .array p, c => by
      unfold fuzz_param_from_state_build
      exact build_ignores_corpus p c
  | .fixedBytes _, _ => rfl
  | .fixedArray p _, c => by
      unfold fuzz_param_from_state_build
      exact build_ignores_corpus p c
  | .tuple ps, c => by
      unfold fuzz_param_from_state_build
      exact buildList_ignores_corpus ps c

theorem buildList_ignores_corpus : ∀ (ps : List ParamType) (c : List Word),
    fuzz_param_from_state_buildList ps c = fuzz_param_from_state_buildList ps []
  | [], _ => rfl
  | p :: ps, c => by
      unfold fuzz_param_from_state_buildList
      rw [build_ignores_corpus p c, buildList_ignores_corpus ps c]

end

theorem scalar_empty_corpus_fails : ∀ (p : ParamType) (e : Entropy),
    isScalarShape p = true → (fuzz_param_from_state_sample p [] e).isOk = false := by
  intro p e hs
  cases p <;> simp [isScalarShape] at hs <;> cases e <;> rfl

mutual

theorem sample_empty_leafFree : ∀ (p : ParamType) (e : Entropy) (t : Token),
    fuzz_param_from_state_sample p [] e = .ok t → leafFree t = true
  | .address, e, t => fun h => by cases e <;> exact Except.noConfusion h
  | .bytes, e, t => fun h => by cases e <;> exact Except.noConfusion h
  | .int _, e, t => fun h => by cases e <;> exact Except.noConfusion h
  | .uint _, e, t => fun h => by cases e <;> exact Except.noConfusion h
  | .bool, e, t => fun h => by cases e <;> exact Except.noConfusion h
  | .string, e, t => fun h => by cases e <;> exact Except.noConfusion h
  | .fixedBytes _, e, t => fun h => by cases e <;> exact Except.noConfusion h
  | .array p, e, t => fun h => by
      cases e <;> unfold fuzz_param_from_state_sample at h
      case seqE es =>
        by_cases hlen : es.length < MAX_ARRAY_LEN
        · rw [if_pos hlen] at h
          cases hts : fuzz_param_from_state_sampleList p [] es with
          | error err => rw [hts] at h; exact Except.noConfusion h
          | ok ts =>
              rw [hts] at h
              simp only [Except.map] at h
              injection h with h
              subst h
              unfold leafFree
              exact sampleList_empty_leafFree p es ts hts
        · rw [if_neg hlen] at h
          exact Except.noConfusion h
      all_goals exact Except.noConfusion h
  | .fixedArray p size, e, t => fun h => by
      cases e <;> unfold fuzz_param_from_state_sample at h
      case seqE es =>
        by_cases hlen : es.length < size
        · rw [if_pos hlen] at h
          cases hts : fuzz_param_from_state_sampleList p [] es with
          | error err => rw [hts] at h; exact Except.noConfusion h
          | ok ts =>
              rw [hts] at h
              simp only [Except.map] at h
              injection h with h
              subst h
              unfold leafFree
              exact sampleList_empty_leafFree p es ts hts
        · rw [if_neg hlen] at h
          exact Except.noConfusion h
      all_goals exact Except.noConfusion h
  | .tuple ps, e, t => fun h => by
      cases e <;> unfold fuzz_param_from_state_sample at h
      case seqE es =>
        cases hts : fuzz_param_from_state_sampleTuple ps [] es with
        | error err => rw [hts] at h; exact Except.noConfusion h
        | ok ts =>
            rw [hts] at h
            simp only [Except.map] at h
            injection h with h
            subst h
            unfold leafFree
            exact sampleTuple_empty_leafFree ps es ts hts
      all_goals exact Except.noConfusion h

theorem sampleList_empty_leafFree : ∀ (p : ParamType) (es : List Entropy) (ts : List Token),
    fuzz_param_from_state_sampleList p [] es = .ok ts → leafFreeList ts = true
  | _, [], ts => fun h => by
      unfold fuzz_param_from_state_sampleList at h
      injection h with h
      subst h
      rfl
  | p, e :: es, ts => fun h => by
      unfold fuzz_param_from_state_sampleList at h
      cases ht : fuzz_param_from_state_sample p [] e with
      | error err => rw [ht] at h; exact Except.noConfusion h
      | ok t =>
          rw [ht] at h
          cases hts : fuzz_param_from_state_sampleList p [] es with
          | error err => rw [hts] at h; exact Except.noConfusion h
          | ok ts' =>
              rw [hts] at h
              simp only [bind, Except.bind] at h
              injection h with h
              subst h
              unfold leafFreeList
              rw [sample_empty_leafFree p e t ht, sampleList_empty_leafFree p es ts' hts]
              rfl

theorem sampleTuple_empty_leafFree :
    ∀ (ps : List ParamType) (es : List Entropy) (ts : List Token),
      fuzz_param_from_state_sampleTuple ps [] es = .ok ts → leafFreeList ts = true
  | [], [], ts => fun h => by
      unfold fuzz_param_from_state_sampleTuple at h
      injection h with h
      subst h
      rfl
  | [], _ :: _, ts => fun h => by
      unfold fuzz_param_from_state_sampleTuple at h
      exact Except.noConfusion h
  | _ :: _, [], ts => fun h => by
      unfold fuzz_param_from_state_sampleTuple at h
      exact Except.noConfusion h
  | p :: ps, e :: es, ts => fun h => by
      unfold fuzz_param_from_state_sampleTuple at h
      cases ht : fuzz_param_from_state_sample p [] e with
      | error err => rw [ht] at h; exact Except.noConfusion h
      | ok t =>
          rw [ht] at h
          cases hts : fuzz_param_from_state_sampleTuple ps [] es with
          | error err => rw [hts] at h; exact Except.noConfusion h
          | ok ts' =>
              rw [hts] at h
              simp only [bind, Except.bind] at h
              injection h with h
              subst h
              unfold leafFreeList
              rw [sample_empty_leafFree p e t ht, sampleTuple_empty_leafFree ps es ts' hts]
              rfl

end

/-- C2 amended: for every parameter shape, construction of the corpus-biased
strategy never validates the corpus (its outcome against any corpus equals
its outcome against the empty corpus — only the integer width checks run at
construction); the empty-corpus violation surfaces at sampling time: every
draw of a scalar (word-selecting) shape against the empty corpus fails, and
more generally any draw that succeeds selected no corpus word (its token is a
leaf-free nest of empty composites). -/
theorem empty_corpus_defers_to_sampling (p : ParamType) (c : List Word) (e : Entropy) :
    fuzz_param_from_state_build p c = fuzz_param_from_state_build p [] ∧
    (isScalarShape p = true → (fuzz_param_from_state_sample p [] e).isOk = false) ∧
    (∀ t, fuzz_param_from_state_sample p [] e = .ok t → leafFree t = true) :=
  ⟨build_ignores_corpus p c,
   fun hs => scalar_empty_corpus_fails p e hs,
   fun t ht => sample_empty_leafFree p e t ht⟩

/-- C2 amended witness. -/
theorem empty_corpus_defers_to_sampling_witness :
    fuzz_param_from_state_build .bool [word01] = fuzz_param_from_state_build .bool [] ∧
    (fuzz_param_from_state_sample .bool [] (.idxE 0)).isOk = false ∧
    leafFree (Token.array []) = true :=
  ⟨(empty_corpus_defers_to_sampling .bool [word01] (.idxE 0)).1,
   (empty_corpus_defers_to_sampling .bool [word01] (.idxE 0)).2.1 rfl,
   (empty_corpus_defers_to_sampling (.array .bool) [] (.seqE [])).2.2 (.array []) rfl⟩

/-- C3 counterexample: the declared width 9 is not a multiple of 8 inside
`[8, 256]`, yet strategy construction succeeds in both modes (the code checks
`n / 8`, i.e. the floor of the division, against `1..=32`). -/
theorem int9_builds_ok :
    fuzz_param_build (.int 9) = .ok () ∧
    fuzz_param_from_state_build (.int 9) [] = .ok () ∧
    9 % 8 = 1 :=
  ⟨rfl, rfl, rfl⟩

/-- C3 amended: construction of an integer strategy fails with the
unsupported-width panic iff the declared width divided by 8 with flooring
falls outside `1..=32` — for `Int` in both modes and `Uint` in the
corpus-biased mode; `Uint` in the pure-random mode delegates its width check
to the external `UintStrategy` (modelled from the spec), which accepts every
whole byte count between 8 and 256 bits.  All checks run at construction. -/
theorem width_check_floor_div (n : Nat) :
    (fuzz_param_build (.int n) = .ok () ↔ 1 ≤ n / 8 ∧ n / 8 ≤ 32) ∧
    (∀ c, fuzz_param_from_state_build (.int n) c = .ok () ↔ 1 ≤ n / 8 ∧ n / 8 ≤ 32) ∧
    (∀ c, fuzz_param_from_state_build (.uint n) c = .ok () ↔ 1 ≤ n / 8 ∧ n / 8 ≤ 32) ∧
    (n % 8 = 0 → 8 ≤ n → n ≤ 256 → fuzz_param_build (.uint n) = .ok ()) := by
  refine ⟨?_, fun c => ?_, fun c => ?_, fun h1 h2 h3 => ?_⟩
  · unfold fuzz_param_build
    split <;> simp_all
  · unfold fuzz_param_from_state_build
    split <;> simp_all
  · unfold fuzz_param_from_state_build
    split <;> simp_all
  · unfold fuzz_param_build UintStrategy_new_check
    rw [if_pos ⟨h1, by omega, by omega⟩]

/-- C3 witness. -/
theorem width_check_floor_div_witness :
    fuzz_param_build (.int 16) = .ok () ∧ fuzz_param_build (.uint 16) = .ok () :=
  ⟨(width_check_floor_div 16).1.mpr (by omega),
   (width_check_floor_div 16).2.2.2 (by omega) (by omega) (by omega)⟩

/-- C5: against a corpus consisting of exactly one 32-byte word, every draw of
the corpus-biased strategy is deterministic: the `Bool` strategy yields `true`
when the word's trailing byte (index 31) is 1 and `false` when it is 0, and
the `Address` strategy always yields the address formed from the word's
trailing 20 bytes (`value[12..]`). -/
theorem single_word_corpus_deterministic (w : Word) (i : Nat) (_hw : w.length = 32) :
    (w.getD 31 0 = 1 →
      fuzz_param_from_state_sample .bool [w] (.idxE i) = .ok (.bool true)) ∧
    (w.getD 31 0 = 0 →
      fuzz_param_from_state_sample .bool [w] (.idxE i) = .ok (.bool false)) ∧
    fuzz_param_from_state_sample .address [w] (.idxE i) = .ok (.address (w.drop 12)) := by
  have hsel : selectValue ([w] : List Word).length [w] i = .ok w := by
    simp [selectValue, Nat.mod_one]
  refine ⟨fun h1 => ?_, fun h0 => ?_, ?_⟩
  · unfold fuzz_param_from_state_sample
    rw [hsel]
    have h1' : w[31]?.getD 0 = 1 := by simpa [List.getD] using h1
    simp [bind, Except.bind, h1']
  · unfold fuzz_param_from_state_sample
    rw [hsel]
    have h0' : w[31]?.getD 0 = 0 := by simpa [List.getD] using h0
    simp [bind, Except.bind, h0']
  · unfold fuzz_param_from_state_sample
    rw [hsel]
    simp [bind, Except.bind]

/-- C5 witness. -/
theorem single_word_corpus_deterministic_witness :
    fuzz_param_from_state_sample .bool [word01] (.idxE 7) = .ok (.bool true) ∧
    fuzz_param_from_state_sample .bool [word00] (.idxE 7) = .ok (.bool false) ∧
    fuzz_param_from_state_sample .address [word01] (.idxE 7) =
      .ok (.address (word01.drop 12)) :=
  ⟨(single_word_corpus_deterministic word01 7 (by decide)).1 (by decide),
   (single_word_corpus_deterministic word00 7 (by decide)).2.1 (by decide),
   (single_word_corpus_deterministic word01 7 (by decide)).2.2⟩

/-- C6: the produced token does not always structurally match the requested
shape: in the corpus-biased mode a `FixedArray(Bool, 2)` draw can produce a
fixed-array token of arity 1, which fails the structural-match check. -/
theorem from_state_shape_mismatch :
    fuzz_param_from_state_sample (.fixedArray .bool 2) [word01] (.seqE [.idxE 0]) =
      .ok (.fixedArray [.bool true]) ∧
    matchesShape (.fixedArray .bool 2) (.fixedArray [.bool true]) = false :=
  ⟨rfl, rfl⟩

/-- C7: in both modes an `Array(element)` draw produces a sequence of length
in `[0, 256)`: the strategies are built with
`proptest::collection::vec(element_strategy, 0..MAX_ARRAY_LEN)`. -/
theorem array_len_lt_256 (p : ParamType) (c : List Word) (e : Entropy) (t : Token) :
    (fuzz_param_sample (.array p) e = .ok t →
      ∃ ts, t = .array ts ∧ ts.length < 256) ∧
    (fuzz_param_from_state_sample (.array p) c e = .ok t →
      ∃ ts, t = .array ts ∧ ts.length < 256) := by
  constructor
  · intro h
    cases e <;> unfold fuzz_param_sample at h
    case seqE es =>
      rw [MAX_ARRAY_LEN] at h
      by_cases hlen : es.length < 256
      · rw [if_pos hlen] at h
        cases hts : fuzz_param_sampleList p es with
        | error err => rw [hts] at h; simp [Except.map] at h
        | ok ts =>
            rw [hts] at h
            simp only [Except.map] at h
            injection h with h
            exact ⟨ts, h.symm, by rw [fuzz_param_sampleList_length p es ts hts]; exact hlen⟩
      · rw [if_neg hlen] at h
        simp at h
    all_goals exact Except.noConfusion h
  · intro h
    cases e <;> unfold fuzz_param_from_state_sample at h
    case seqE es =>
      rw [MAX_ARRAY_LEN] at h
      by_cases hlen : es.length < 256
      · rw [if_pos hlen] at h
        cases hts : fuzz_param_from_state_sampleList p c es with
        | error err => rw [hts] at h; simp [Except.map] at h
        | ok ts =>
            rw [hts] at h
            simp only [Except.map] at h
            injection h with h
            exact ⟨ts, h.symm,
              by rw [fuzz_param_from_state_sampleList_length p c es ts hts]; exact hlen⟩
      · rw [if_neg hlen] at h
        simp at h
    all_goals exact Except.noConfusion h

/-- C7 witness. -/
theorem array_len_lt_256_witness :
    ∃ ts, Token.array [Token.bool true] = .array ts ∧ ts.length < 256 :=
  (array_len_lt_256 .bool [] (.seqE [.boolE true]) (.array [.bool true])).1 rfl

/-- C9: with a positive length snapshot `stateLen` captured at construction
and a live corpus at least that long (the corpus is append-only), every index
draw reduces to an index strictly inside `[0, stateLen)` and the fetch of the
corpus word at that index succeeds. -/
theorem select_index_in_bounds (stateLen : Nat) (live : List Word) (i : Nat)
    (hpos : 0 < stateLen) (hle : stateLen ≤ live.length) :
    i % stateLen < stateLen ∧
    ∃ w, live.get? (i % stateLen) = some w ∧ selectValue stateLen live i = .ok w := by
  have hm : i % stateLen < stateLen := Nat.mod_lt i hpos
  have hl : i % stateLen < live.length := lt_of_lt_of_le hm hle
  refine ⟨hm, live.get ⟨i % stateLen, hl⟩, List.get?_eq_get hl, ?_⟩
  unfold selectValue
  rw [if_neg (by omega), List.get?_eq_get hl]

/-- C9 witness. -/
theorem select_index_in_bounds_witness :
    5 % 1 < 1 ∧
    ∃ w, ([word01] : List Word).get? (5 % 1) = some w ∧
      selectValue 1 [word01] 5 = .ok w :=
  select_index_in_bounds 1 [word01] 5 (by omega) (by simp)

/-- C10: in the corpus-biased mode, a `FixedBytes(size)` draw panics when
`size > 32` (the slice lower bound `32 - size` underflows); for `size ≤ 32`
the conversion is total and yields exactly the word's trailing `size` bytes. -/
theorem fixedBytes_from_state_trailing (size : Nat) (w : Word) (i : Nat)
    (hw : w.length = 32) :
    (32 < size →
      fuzz_param_from_state_sample (.fixedBytes size) [w] (.idxE i) =
        .error .samplePanic) ∧
    (size ≤ 32 →
      fuzz_param_from_state_sample (.fixedBytes size) [w] (.idxE i) =
        .ok (.fixedBytes (w.drop (32 - size))) ∧
      (w.drop (32 - size)).length = size) := by
  have hsel : selectValue ([w] : List Word).length [w] i = .ok w := by
    simp [selectValue, Nat.mod_one]
  constructor
  · intro hgt
    unfold fuzz_param_from_state_sample
    rw [hsel]
    simp [bind, Except.bind, if_pos hgt]
  · intro hle
    constructor
    · unfold fuzz_param_from_state_sample
      rw [hsel]
      simp [bind, Except.bind, if_neg (not_lt.mpr hle)]
    · rw [List.length_drop, hw]
      omega

/-- C10 witness. -/
theorem fixedBytes_from_state_trailing_witness :
    fuzz_param_from_state_sample (.fixedBytes 33) [word01] (.idxE 0) =
      .error .samplePanic ∧
    fuzz_param_from_state_sample (.fixedBytes 20) [word01] (.idxE 0) =
      .ok (.fixedBytes (word01.drop (32 - 20))) :=
  ⟨(fixedBytes_from_state_trailing 33 word01 0 (by decide)).1 (by omega),
   ((fixedBytes_from_state_trailing 20 word01 0 (by decide)).2 (by omega)).1⟩

lemma narrow_recenter_bound (n u : Nat) (h8 : n % 8 = 0) (hlo : 8 ≤ n) (hhi : n < 256) :
    -((2 : Int) ^ (n - 1)) ≤
        toSigned256 ((u % 2 ^ n + (2 ^ 256 - 2 ^ (n - 1))) % 2 ^ 256) ∧
      toSigned256 ((u % 2 ^ n + (2 ^ 256 - 2 ^ (n - 1))) % 2 ^ 256) < (2 : Int) ^ (n - 1) := by
  have hn248 : n ≤ 248 := by omega
  have hu' : u % 2 ^ n < 2 ^ n := Nat.mod_lt _ (Nat.pos_pow_of_pos n (by norm_num))
  have hu248 : u % 2 ^ n < 2 ^ 248 :=
    lt_of_lt_of_le hu' (Nat.pow_le_pow_right (by norm_num) hn248)
  have hh : 2 ^ (n - 1) ≤ 2 ^ 247 := Nat.pow_le_pow_right (by norm_num) (by omega)
  rw [toSigned256_wrap_sub (u % 2 ^ n) (2 ^ (n - 1)) hu248 hh]
  have h2n : (2 : Nat) ^ n = 2 ^ (n - 1) * 2 := by
    rw [← pow_succ]
    congr 1
    omega
  have hcast : ((2 ^ (n - 1) : Nat) : Int) = (2 : Int) ^ (n - 1) := by push_cast; ring
  have hcastu : (0 : Int) ≤ ((u % 2 ^ n : Nat) : Int) := Int.ofNat_nonneg _
  have hcastu2 : ((u % 2 ^ n : Nat) : Int) < ((2 ^ n : Nat) : Int) := by exact_mod_cast hu'
  have h2ncast : ((2 ^ n : Nat) : Int) = ((2 ^ (n - 1) : Nat) : Int) * 2 := by
    exact_mod_cast congrArg (Nat.cast : Nat → Int) h2n
  constructor
  · rw [← hcast]; omega
  · rw [← hcast]; omega

/-- C4: for every supported signed width `w < 256` (a byte multiple in
`[8, 248]`), every drawn `Int` value in both modes lies in
`[-2^(w-1), 2^(w-1))` — the 256-bit draw (resp. fetched corpus word) is
reduced modulo `2^w` and recentered by wrapping subtraction of `2^(w-1)`;
for `w = 256` the 256-bit quantity is reinterpreted directly with no
narrowing, so every value of the full signed range is reachable. -/
theorem signed_int_range (n : Nat) (h8 : n % 8 = 0) (hlo : 8 ≤ n) (hhi : n ≤ 256) :
    (n < 256 →
      (∀ bs v, fuzz_param_sample (.int n) (.bytesE bs) = .ok (.int v) →
        -((2 : Int) ^ (n - 1)) ≤ v ∧ v < (2 : Int) ^ (n - 1)) ∧
      (∀ c i v, fuzz_param_from_state_sample (.int n) c (.idxE i) = .ok (.int v) →
        -((2 : Int) ^ (n - 1)) ≤ v ∧ v < (2 : Int) ^ (n - 1))) ∧
    (n = 256 →
      (∀ bs, bs.length = 32 → (∀ b ∈ bs, b < 256) →
        fuzz_param_sample (.int n) (.bytesE bs) = .ok (.int (toSigned256 (beNat bs)))) ∧
      (∀ w i, fuzz_param_from_state_sample (.int n) [w] (.idxE i) =
        .ok (.int (toSigned256 (beNat w)))) ∧
      (∀ v : Int, -((2 : Int) ^ 255) ≤ v → v < (2 : Int) ^ 255 →
        ∃ bs, fuzz_param_sample (.int n) (.bytesE bs) = .ok (.int v))) := by
  have hdvd : n / 8 * 8 = n := Nat.div_mul_cancel (Nat.dvd_of_mod_eq_zero h8)
  constructor
  · intro hlt
    have hy31 : n / 8 ≤ 31 := by omega
    have hy1 : 1 ≤ n / 8 := by omega
    constructor
    · intro bs v h
      unfold fuzz_param_sample at h
      by_cases hg : bs.length = 32 ∧ ∀ b ∈ bs, b < 256
      · rw [if_pos hg, if_neg (by omega), if_pos ⟨hy1, hy31⟩, hdvd] at h
        injection h with h
        injection h with h
        rw [← h]
        exact narrow_recenter_bound n (beNat bs) h8 hlo hlt
      · rw [if_neg hg] at h
        exact Except.noConfusion h
    · intro c i v h
      unfold fuzz_param_from_state_sample at h
      cases hsel : selectValue c.length c i with
      | error err => rw [hsel] at h; exact Except.noConfusion h
      | ok w =>
          rw [hsel] at h
          simp only [bind, Except.bind] at h
          rw [if_neg (by omega), if_pos ⟨hy1, hy31⟩, hdvd] at h
          injection h with h
          injection h with h
          rw [← h]
          exact narrow_recenter_bound n (beNat w) h8 hlo hlt
  · intro h256
    subst h256
    refine ⟨fun bs hlen hall => ?_, fun w i => ?_, fun v hv1 hv2 => ?_⟩
    · unfold fuzz_param_sample
      rw [if_pos ⟨hlen, hall⟩]
      norm_num
    · have hsel : selectValue ([w] : List Word).length [w] i = .ok w := by
        simp [selectValue, Nat.mod_one]
      unfold fuzz_param_from_state_sample
      rw [hsel]
      simp only [bind, Except.bind]
      norm_num
    · have hc255 : ((2 ^ 255 : Nat) : Int) = (2 : Int) ^ 255 := by push_cast
      have hc256 : ((2 ^ 256 : Nat) : Int) = (2 : Int) ^ 256 := by push_cast
      have hrel : (2 : Nat) ^ 255 + 2 ^ 255 = 2 ^ 256 := by norm_num
      have h32 : (256 : Nat) ^ 32 = 2 ^ 256 := by norm_num
      rcases le_or_lt 0 v with hv0 | hv0
      · refine ⟨toBytesBE 32 v.toNat, ?_⟩
        unfold fuzz_param_sample
        rw [if_pos ⟨length_toBytesBE 32 _, mem_toBytesBE_lt 32 _⟩,
          if_pos (show (256 : Nat) / 8 = 32 from by norm_num)]
        rw [beNat_toBytesBE, h32]
        have hlt : v.toNat < 2 ^ 256 := by omega
        rw [Nat.mod_eq_of_lt hlt]
        rw [toSigned256, if_pos (by omega)]
        rw [Int.toNat_of_nonneg hv0]
      · refine ⟨toBytesBE 32 (v + 2 ^ 256).toNat, ?_⟩
        unfold fuzz_param_sample
        rw [if_pos ⟨length_toBytesBE 32 _, mem_toBytesBE_lt 32 _⟩,
          if_pos (show (256 : Nat) / 8 = 32 from by norm_num)]
        rw [beNat_toBytesBE, h32]
        have hlt : (v + 2 ^ 256).toNat < 2 ^ 256 := by omega
        rw [Nat.mod_eq_of_lt hlt]
        rw [toSigned256, if_neg (by omega)]
        have hpos : (0 : Int) ≤ v + 2 ^ 256 := by omega
        rw [Int.toNat_of_nonneg hpos]
        norm_num

/-- C4 witness. -/
theorem signed_int_range_witness :
    -((2 : Int) ^ (8 - 1)) ≤ (-128 : Int) ∧ (-128 : Int) < (2 : Int) ^ (8 - 1) :=
  ((signed_int_range 8 (by omega) (by omega) (by omega)).1 (by omega)).1
    word00 (-128) (by rfl)

/-- C8: for every supported unsigned width (a byte multiple in `[8, 256]`),
every drawn `Uint` value lies in `[0, 2^w)`; in the corpus-biased mode a
fetched 32-byte word is reduced modulo `2^w` when `w < 256` and used in full
when `w = 256`.  The pure-random mode delegates to the external
`UintStrategy` (modelled from the spec as producing values in range). -/
theorem uint_range (n : Nat) (h8 : n % 8 = 0) (hlo : 8 ≤ n) (hhi : n ≤ 256) :
    (∀ e v, fuzz_param_sample (.uint n) e = .ok (.uint v) → v < 2 ^ n) ∧
    (∀ w i v, WFWord w →
      fuzz_param_from_state_sample (.uint n) [w] (.idxE i) = .ok (.uint v) →
        v < 2 ^ n) ∧
    (n < 256 → ∀ w i,
      fuzz_param_from_state_sample (.uint n) [w] (.idxE i) =
        .ok (.uint (beNat w % 2 ^ n))) ∧
    (n = 256 → ∀ w i,
      fuzz_param_from_state_sample (.uint n) [w] (.idxE i) =
        .ok (.uint (beNat w))) := by
  have hdvd : n / 8 * 8 = n := Nat.div_mul_cancel (Nat.dvd_of_mod_eq_zero h8)
  refine ⟨fun e v h => ?_, fun w i v hwf h => ?_, fun hlt w i => ?_, fun h256 w i => ?_⟩
  · unfold fuzz_param_sample at h
    cases e <;> unfold UintStrategy_sample at h <;>
      simp only [Except.map] at h
    case uintE v' =>
      by_cases hv : v' < 2 ^ n
      · rw [if_pos hv] at h
        simp only [Except.map] at h
        injection h with h
        injection h with h
        omega
      · rw [if_neg hv] at h
        simp only [Except.map] at h
        exact Except.noConfusion h
    all_goals exact Except.noConfusion h
  · have hsel : selectValue ([w] : List Word).length [w] i = .ok w := by
      simp [selectValue, Nat.mod_one]
    unfold fuzz_param_from_state_sample at h
    rw [hsel] at h
    simp only [bind, Except.bind] at h
    by_cases h32 : n / 8 = 32
    · have hn : n = 256 := by omega
      rw [if_pos h32] at h
      injection h with h
      injection h with h
      have hb : beNat w < 2 ^ (8 * w.length) := beNat_lt w hwf.2
      rw [hwf.1] at hb
      subst hn
      omega
    · rw [if_neg h32, if_pos ⟨by omega, by omega⟩, hdvd] at h
      injection h with h
      injection h with h
      have hm : beNat w % 2 ^ n < 2 ^ n :=
        Nat.mod_lt _ (Nat.pos_pow_of_pos n (by norm_num))
      exact h ▸ hm
  · have hsel : selectValue ([w] : List Word).length [w] i = .ok w := by
      simp [selectValue, Nat.mod_one]
    unfold fuzz_param_from_state_sample
    rw [hsel]
    simp only [bind, Except.bind]
    rw [if_neg (by omega), if_pos ⟨by omega, by omega⟩, hdvd]
  · subst h256
    have hsel : selectValue ([w] : List Word).length [w] i = .ok w := by
      simp [selectValue, Nat.mod_one]
    unfold fuzz_param_from_state_sample
    rw [hsel]
    simp only [bind, Except.bind]
    norm_num

/-- C8 witness. -/
theorem uint_range_witness :
    fuzz_param_from_state_sample (.uint 8) [word01] (.idxE 3) =
      .ok (.uint (beNat word01 % 2 ^ 8)) :=
  (uint_range 8 (by omega) (by omega) (by omega)).2.2.1 (by omega) word01 3
